import Mathlib

/-!
A shallow embedding of the rustchain ledger (src/block.rs, src/blockchain.rs,
src/hashable.rs) in Lean 4, together with theorems settling the frozen claims
about it.

Machine integers (u32, u64, u128) are modelled as `Nat`; the only place where
width matters is the nonce search bound `2 ^ 64 - 1` in `Block.mine`, kept
explicit.  `Vec<u8>` hashes are `List Nat`.  Rust `HashSet<Hash>` is `Finset`.
The SHA-256 digest comes from the external `crypto_hash` crate, so every
definition that hashes takes the digest as an explicit function parameter
`digest : List Nat → List Nat`; theorems hold for every digest.
-/

/-- `Hash` from the repository: a byte vector (`Vec<u8>`). -/
abbrev Hash := List Nat

/-- Modelled from the spec: a transaction output ("an address + positive
value"), whose content-addressed hash is "unique per distinct (producing-tx,
index, address, value) combination"; `transaction.rs` is not in `src/`.  The
`origin` field abstracts the producing-transaction-and-index component of the
content address, and the content-addressed hash of an output is modelled
injectively by the output record itself. -/
structure Output where
  origin : Nat
  to_address : String
  value : Nat
deriving DecidableEq

/-- Modelled from the spec: the content-addressed identifier of an output,
idealised as injective (collision-free) content addressing. -/
def Output.hashId (o : Output) : Output := o

/-- Modelled from the spec: canonical bytes of an output (origin, address,
value serialised in order); only its role as digest preimage matters. -/
def Output.bytesOf (o : Output) : List Nat :=
  (List.range 8).map (fun k => o.origin / 256 ^ k % 256)
  ++ o.to_address.data.map Char.toNat
  ++ (List.range 8).map (fun k => o.value / 256 ^ k % 256)

/-- Modelled from the spec: a transaction has "zero-or-more inputs (each input
identifying a previously created Output)" carried by value, and outputs. -/
structure Transaction where
  inputs : List Output
  outputs : List Output
deriving DecidableEq

/-- Modelled from the spec: `is_coinbase()` is "true iff it has no inputs". -/
def Transaction.is_coinbase (t : Transaction) : Bool := t.inputs.isEmpty

/-- Modelled from the spec: "set of Hash identifying each consumed output". -/
def Transaction.input_hashes (t : Transaction) : Finset Output :=
  (t.inputs.map Output.hashId).toFinset

/-- Modelled from the spec: "set of Hash identifying each produced output". -/
def Transaction.output_hashes (t : Transaction) : Finset Output :=
  (t.outputs.map Output.hashId).toFinset

/-- Modelled from the spec: "sum of referenced outputs' values" (inputs are
carried by value). -/
def Transaction.input_value (t : Transaction) : Nat :=
  (t.inputs.map Output.value).sum

/-- Modelled from the spec: "sum of its own outputs' values". -/
def Transaction.output_value (t : Transaction) : Nat :=
  (t.outputs.map Output.value).sum

/-- Modelled from the spec: canonical bytes of a transaction, the
order-preserving serialization of its inputs then outputs. -/
def Transaction.bytesOf (t : Transaction) : List Nat :=
  (t.inputs.map Output.bytesOf).flatten ++ (t.outputs.map Output.bytesOf).flatten

/-- Modelled from the spec: fixed-width little-endian serialization of a u32
(`u32_bytes` of the missing `lib.rs`). -/
def u32_bytes (u : Nat) : List Nat := (List.range 4).map (fun k => u / 256 ^ k % 256)

/-- Modelled from the spec: fixed-width little-endian serialization of a u64
(`u64_bytes` of the missing `lib.rs`). -/
def u64_bytes (u : Nat) : List Nat := (List.range 8).map (fun k => u / 256 ^ k % 256)

/-- Modelled from the spec: fixed-width little-endian serialization of a u128
(`u128_bytes` of the missing `lib.rs`). -/
def u128_bytes (u : Nat) : List Nat := (List.range 16).map (fun k => u / 256 ^ k % 256)

/-- Modelled from the spec: "digest … interpreted as an unsigned 128-bit
big-endian integer (highest 16 bytes)" (`difficulty_bytes_as_u128` of the
missing `lib.rs`): the hash's leading 16 bytes read big-endian. -/
def difficulty_bytes_as_u128 (h : Hash) : Nat :=
  (h.take 16).foldl (fun acc b => acc * 256 + b) 0

/-- `Block` from `src/block.rs`. -/
structure Block where
  index : Nat
  timestamp : Nat
  hash : Hash
  previous_block_hash : Hash
  nonce : Nat
  transactions : List Transaction
  difficulty : Nat
deriving DecidableEq

/-- `Block::new` from `src/block.rs`: hash is the all-zero 32-byte
placeholder (`vec![0; 32]`), nonce 0. -/
def Block.new (index timestamp : Nat) (previous_block_hash : Hash)
    (transactions : List Transaction) (difficulty : Nat) : Block :=
  ⟨index, timestamp, List.replicate 32 0, previous_block_hash, 0, transactions, difficulty⟩

/-- `Hashable::bytes` for `Block` from `src/block.rs` lines 59-74: index,
timestamp, previous_block_hash, nonce, transactions, difficulty — the `hash`
field is not part of the preimage. -/
def Block.bytesOf (b : Block) : List Nat :=
  u32_bytes b.index ++ u128_bytes b.timestamp ++ b.previous_block_hash
  ++ u64_bytes b.nonce ++ (b.transactions.map Transaction.bytesOf).flatten
  ++ u128_bytes b.difficulty

/-- `Hashable::hash` from `src/hashable.rs`: the digest of the canonical
bytes; the digest function (external `crypto_hash` SHA-256) is a parameter. -/
def Block.hashOf (digest : List Nat → List Nat) (b : Block) : Hash :=
  digest (Block.bytesOf b)

/-- `check_difficulty` from `src/block.rs` line 77-79. -/
def check_difficulty (hash : Hash) (difficulty : Nat) : Bool :=
  decide (difficulty > difficulty_bytes_as_u128 hash)

/-- The loop body of `Block::mine` from `src/block.rs` lines 47-56:
`fuel` counts the remaining nonce attempts, `nonce` is the next nonce to try.
Each attempt stores the nonce into the block (the Rust loop assigns
`self.nonce = none_attempt` before hashing, also on failure). -/
def Block.mineAux (digest : List Nat → List Nat) : Nat → Nat → Block → Block
  | 0, _, b => b
  | fuel + 1, nonce, b =>
    let b1 : Block := { b with nonce := nonce }
    let h := Block.hashOf digest b1
    if check_difficulty h b1.difficulty then { b1 with hash := h }
    else Block.mineAux digest fuel (nonce + 1) b1

/-- `Block::mine` from `src/block.rs`: `for none_attempt in 0..u64::max_value()`
tries the `2 ^ 64 - 1` nonces `0 … 2 ^ 64 - 2` in order. -/
def Block.mine (digest : List Nat → List Nat) (b : Block) : Block :=
  Block.mineAux digest (2 ^ 64 - 1) 0 b

/-- `BlockValidationError` from `src/blockchain.rs`. -/
inductive BlockValidationError where
  | MismatchedIndex
  | InvalidHash
  | AchronicalTimestamp
  | MismatchedPreviousHash
  | InvalidGenesisBlockFormat
  | InvalidInput
  | InsufficientInputValue
  | InvalidCoinbaseTransaction
deriving DecidableEq

/-- `BlockChain` from `src/blockchain.rs`. -/
structure BlockChain where
  blocks : List Block
  unspent_outputs : Finset Output
deriving DecidableEq

/-- `BlockChain::new` from `src/blockchain.rs`. -/
def BlockChain.new : BlockChain := ⟨[], ∅⟩

/-- The per-transaction settlement loop of `update_with_block`
(`src/blockchain.rs` lines 56-80), over the non-coinbase transactions:
carries the block-scoped `block_spent` / `block_created` sets and the running
`total_fee`, returning them on success. -/
def settleLoop (unspent : Finset Output) :
    List Transaction → Finset Output → Finset Output → Nat →
    Except BlockValidationError (Finset Output × Finset Output × Nat)
  | [], block_spent, block_created, total_fee =>
    .ok (block_spent, block_created, total_fee)
  | t :: rest, block_spent, block_created, total_fee =>
    let input_hashes := t.input_hashes
    if ¬(input_hashes \ unspent = ∅) ∨ ¬(input_hashes ∩ block_spent = ∅) then
      .error .InvalidInput
    else
      let input_value := t.input_value
      let output_value := t.output_value
      if output_value > input_value then .error .InsufficientInputValue
      else
        settleLoop unspent rest (block_spent ∪ input_hashes)
          (block_created ∪ t.output_hashes) (total_fee + (input_value - output_value))

/-- The settlement-and-commit tail of `update_with_block`
(`src/blockchain.rs` lines 51-94): when the transaction list is non-empty the
first transaction must be a coinbase, the rest are settled, the coinbase must
cover the fees, and on success the UTXO set is updated by removing the spent
set and inserting the created set; finally the block is pushed. -/
def settleAndCommit (bc : BlockChain) (block : Block) :
    Except BlockValidationError Unit × BlockChain :=
  match block.transactions with
  | [] => (.ok (), ⟨bc.blocks ++ [block], bc.unspent_outputs⟩)
  | coinbase :: rest =>
    if ¬ coinbase.is_coinbase then (.error .InvalidCoinbaseTransaction, bc)
    else
      match settleLoop bc.unspent_outputs rest ∅ ∅ 0 with
      | .error e => (.error e, bc)
      | .ok (block_spent, block_created, total_fee) =>
        if coinbase.output_value < total_fee then
          (.error .InvalidCoinbaseTransaction, bc)
        else
          (.ok (), ⟨bc.blocks ++ [block],
            (bc.unspent_outputs \ block_spent) ∪ (block_created ∪ coinbase.output_hashes)⟩)

/-- `BlockChain::update_with_block` from `src/blockchain.rs` lines 31-95.
The state is threaded explicitly (`&mut self` becomes a returned
`BlockChain`); `blocks[i-1]` with `i = blocks.len() ≠ 0` is the last
element, fetched here with `getLast?`. -/
def update_with_block (digest : List Nat → List Nat) (bc : BlockChain)
    (block : Block) : Except BlockValidationError Unit × BlockChain :=
  let i := bc.blocks.length
  if block.index ≠ i then (.error .MismatchedIndex, bc)
  else if ¬ check_difficulty (Block.hashOf digest block) block.difficulty then
    (.error .InvalidHash, bc)
  else
    match bc.blocks.getLast? with
    | some previous_block =>
      if block.timestamp ≤ previous_block.timestamp then
        (.error .AchronicalTimestamp, bc)
      else if block.previous_block_hash ≠ previous_block.hash then
        (.error .MismatchedPreviousHash, bc)
      else settleAndCommit bc block
    | none =>
      if block.previous_block_hash ≠ List.replicate 32 0 then
        (.error .InvalidGenesisBlockFormat, bc)
      else settleAndCommit bc block

/-- Submitting a list of candidate blocks in order, starting from a given
ledger state; `none` when some submission is rejected. -/
def applyBlocks (digest : List Nat → List Nat) : BlockChain → List Block → Option BlockChain
  | bc, [] => some bc
  | bc, b :: bs =>
    match update_with_block digest bc b with
    | (Except.ok _, bc2) => applyBlocks digest bc2 bs
    | (Except.error _, _) => none

/-- A stand-in digest used for concrete witnesses and counterexamples: the
constant all-zero 32-byte hash (the digest is external to the repository and
all universally quantified theorems hold for every digest). -/
def zeroDigest : List Nat → List Nat := fun _ => List.replicate 32 0

/-- The set of input hashes consumed by a block's transactions (coinbase and
ordinary alike). -/
def blockSpent (b : Block) : Finset Output :=
  b.transactions.foldr (fun t acc => t.input_hashes ∪ acc) ∅

/-- The set of output hashes produced by a block's transactions (coinbase and
ordinary alike). -/
def blockCreated (b : Block) : Finset Output :=
  b.transactions.foldr (fun t acc => t.output_hashes ∪ acc) ∅

/-- The set of input hashes consumed by the transactions of a list of blocks. -/
def chainSpent (bs : List Block) : Finset Output :=
  bs.foldr (fun b acc => blockSpent b ∪ acc) ∅

/-- The set of output hashes produced by the transactions of a list of blocks. -/
def chainCreated (bs : List Block) : Finset Output :=
  bs.foldr (fun b acc => blockCreated b ∪ acc) ∅

/-- Freshness of a block sequence relative to an already-spent set `S`: each
block's created output hashes avoid every input hash consumed up to and
including that block. -/
def freshB (S : Finset Output) : List Block → Bool
  | [] => true
  | b :: rest =>
    decide (blockCreated b ∩ (S ∪ blockSpent b) = ∅) && freshB (S ∪ blockSpent b) rest

/-- The linkage-or-genesis condition of `update_with_block`
(`src/blockchain.rs` lines 38-49) as a boolean: used to state claims about
blocks that pass the structural checks. -/
def linkageOk (bc : BlockChain) (block : Block) : Bool :=
  match bc.blocks.getLast? with
  | some p => decide (p.timestamp < block.timestamp) && decide (block.previous_block_hash = p.hash)
  | none => decide (block.previous_block_hash = List.replicate 32 0)

/-- Modelled from the claim wording of C5 (spec §4.3 step 4b): some
non-coinbase transaction whose `input_hashes` are not a subset of the given
unspent set, or meet the input hashes of an earlier transaction in the list;
`earlier` accumulates the earlier transactions' input hashes.  Used only to
state that claim as written. -/
def spec_inputViolationAux (unspent earlier : Finset Output) : List Transaction → Bool
  | [] => false
  | t :: rest =>
    decide (¬(t.input_hashes \ unspent = ∅)) || decide (¬(t.input_hashes ∩ earlier = ∅))
    || spec_inputViolationAux unspent (earlier ∪ t.input_hashes) rest

/-- Modelled from the claim wording of C5: see `spec_inputViolationAux`. -/
def spec_inputViolation (unspent : Finset Output) (txs : List Transaction) : Bool :=
  spec_inputViolationAux unspent ∅ txs

/-- The concrete output `{Alice, 50}` used by the concrete chains below. -/
def oA : Output := ⟨0, "Alice", 50⟩

/-- A coinbase-funded output for a miner. -/
def oM : Output := ⟨1, "Miner", 10⟩

/-- The output created by spending `oA`. -/
def oB : Output := ⟨2, "Bob", 50⟩

/-- Genesis coinbase transaction creating `oA`. -/
def txCb0 : Transaction := ⟨[], [oA]⟩

/-- Coinbase of the second block, creating `oM`. -/
def txCb1 : Transaction := ⟨[], [oM]⟩

/-- Transaction spending `oA` into `oB` (fee 0). -/
def txSpend : Transaction := ⟨[oA], [oB]⟩

/-- Concrete genesis block (all stored hash fields are the 32-byte zero
vector, which is also what `zeroDigest` computes, so proof-of-work holds at
difficulty 1 and linkage holds throughout). -/
def wB0 : Block := ⟨0, 1, List.replicate 32 0, List.replicate 32 0, 0, [txCb0], 1⟩

/-- Concrete second block spending `oA`. -/
def wB1 : Block := ⟨1, 2, List.replicate 32 0, List.replicate 32 0, 0, [txCb1, txSpend], 1⟩

/-- Concrete third block whose coinbase is byte-identical to the genesis
coinbase, re-creating the already-spent output hash `oA`. -/
def wB2 : Block := ⟨2, 3, List.replicate 32 0, List.replicate 32 0, 0, [txCb0], 1⟩

deriving instance DecidableEq for Except

/-- The result of accepting `wB0` then `wB1` from the empty chain. -/
def wSt : BlockChain := ⟨[wB0, wB1], {oB, oM}⟩

/-- The result of accepting `wB0` alone from the empty chain. -/
def wB0St : BlockChain := ⟨[wB0], {oA}⟩

/-- A block with difficulty 0: no hash value can ever satisfy the
proof-of-work check, so mining must exhaust the whole nonce range. -/
def cxZeroDiff : Block := Block.new 0 0 (List.replicate 32 0) [] 0

/-- A block whose index does not match the empty chain. -/
def cxBadIndex : Block := ⟨1, 0, List.replicate 32 0, List.replicate 32 0, 0, [], 1⟩

/-- An output that is never placed in any UTXO set. -/
def oX : Output := ⟨9, "X", 5⟩

/-- Output of the coinbase `cbX`. -/
def oC : Output := ⟨5, "Chris", 5⟩

/-- Output of value 1 out of thin air. -/
def oY : Output := ⟨6, "Y", 1⟩

/-- Output fed by the non-existent `oX`. -/
def oZ : Output := ⟨7, "Z", 5⟩

/-- A well-formed coinbase transaction. -/
def cbX : Transaction := ⟨[], [oC]⟩

/-- A non-coinbase transaction with no inputs but positive output value: its
output value exceeds its input value 0. -/
def txNoInput : Transaction := ⟨[], [oY]⟩

/-- A transaction spending the never-created output `oX`. -/
def txBadInput : Transaction := ⟨[oX], [oZ]⟩

/-- Genesis-position block whose second non-coinbase transaction has an input
violation while the first fails the value check. -/
def cx5 : Block := ⟨0, 1, List.replicate 32 0, List.replicate 32 0, 0,
  [cbX, txNoInput, txBadInput], 1⟩

/-- Genesis-position block whose only non-coinbase transaction spends a
non-existent output. -/
def cx5v : Block := ⟨0, 1, List.replicate 32 0, List.replicate 32 0, 0, [cbX, txBadInput], 1⟩

/-- Empty-transaction genesis-position block passing index, proof-of-work
and sentinel checks. -/
def cx8 : Block := ⟨0, 5, List.replicate 32 0, List.replicate 32 0, 0, [], 1⟩

/-- Genesis-position block with the correct zero sentinel but difficulty 0,
so the proof-of-work check cannot pass. -/
def cx6 : Block := ⟨0, 0, List.replicate 32 0, List.replicate 32 0, 0, [], 0⟩

/-- Genesis-position block with a non-zero sentinel that passes
proof-of-work. -/
def cx6bad : Block := ⟨0, 0, List.replicate 32 0, List.replicate 32 1, 0, [], 1⟩

/-- Overwriting the nonce twice keeps only the second value. -/
theorem Block.nonce_update_collapse (b : Block) (x y : Nat) :
    ({ { b with nonce := x } with nonce := y } : Block) = { b with nonce := y } := rfl

/-- The canonical bytes of a block do not depend on its stored `hash` field
(`src/block.rs` lines 59-74 serialize every field except `hash`). -/
theorem Block.bytesOf_hash_update (b : Block) (h : Hash) :
    Block.bytesOf { b with hash := h } = Block.bytesOf b := rfl

/-- The mining loop never changes the difficulty. -/
theorem Block.mineAux_difficulty (digest : List Nat → List Nat) :
    ∀ fuel nonce b, (Block.mineAux digest fuel nonce b).difficulty = b.difficulty := by
  intro fuel
  induction fuel with
  | zero => intro nonce b; rfl
  | succ f ih =>
    intro nonce b
    simp only [Block.mineAux]
    split
    · rfl
    · exact ih (nonce + 1) { b with nonce := nonce }

/-- The mining loop never changes index, timestamp, previous hash,
transactions, or difficulty. -/
theorem Block.mineAux_frame (digest : List Nat → List Nat) :
    ∀ fuel nonce b, (Block.mineAux digest fuel nonce b).index = b.index ∧
      (Block.mineAux digest fuel nonce b).timestamp = b.timestamp ∧
      (Block.mineAux digest fuel nonce b).previous_block_hash = b.previous_block_hash ∧
      (Block.mineAux digest fuel nonce b).transactions = b.transactions ∧
      (Block.mineAux digest fuel nonce b).difficulty = b.difficulty := by
  intro fuel
  induction fuel with
  | zero => intro nonce b; exact ⟨rfl, rfl, rfl, rfl, rfl⟩
  | succ f ih =>
    intro nonce b
    simp only [Block.mineAux]
    split
    · exact ⟨rfl, rfl, rfl, rfl, rfl⟩
    · exact ih (nonce + 1) { b with nonce := nonce }

/-- The mining loop changes the stored `hash` field only to a value that
satisfies the proof-of-work check for the block's difficulty. -/
theorem Block.mineAux_hash_cases (digest : List Nat → List Nat) :
    ∀ fuel nonce b, (Block.mineAux digest fuel nonce b).hash = b.hash ∨
      check_difficulty (Block.mineAux digest fuel nonce b).hash
        (Block.mineAux digest fuel nonce b).difficulty = true := by
  intro fuel
  induction fuel with
  | zero => intro nonce b; exact Or.inl rfl
  | succ f ih =>
    intro nonce b
    simp only [Block.mineAux]
    split
    · rename_i hc
      exact Or.inr hc
    · exact ih (nonce + 1) { b with nonce := nonce }

/-- One unfolding step of the mining loop. -/
theorem Block.mineAux_succ (digest : List Nat → List Nat) (fuel nonce : Nat) (b : Block) :
    Block.mineAux digest (fuel + 1) nonce b =
      (if check_difficulty (Block.hashOf digest { b with nonce := nonce }) b.difficulty then
        ({ b with nonce := nonce, hash := Block.hashOf digest { b with nonce := nonce } } : Block)
      else Block.mineAux digest fuel (nonce + 1) { b with nonce := nonce }) := rfl

/-- If every nonce tried by the loop fails the proof-of-work check, the loop
returns with the hash untouched and the nonce at the last value tried. -/
theorem Block.mineAux_exhaust (digest : List Nat → List Nat) :
    ∀ fuel nonce b,
      (∀ k, k ≤ fuel →
        check_difficulty (Block.hashOf digest { b with nonce := nonce + k }) b.difficulty = false) →
      Block.mineAux digest (fuel + 1) nonce b = { b with nonce := nonce + fuel } := by
  intro fuel
  induction fuel with
  | zero =>
    intro nonce b hfail
    have h0 := hfail 0 (Nat.le_refl 0)
    simp only [Nat.add_zero] at h0
    rw [Block.mineAux_succ, h0]
    rfl
  | succ f ih =>
    intro nonce b hfail
    have h0 := hfail 0 (Nat.zero_le _)
    simp only [Nat.add_zero] at h0
    rw [Block.mineAux_succ, h0]
    simp only [Bool.false_eq_true, if_false]
    have hrec := ih (nonce + 1) { b with nonce := nonce } (by
      intro k hk
      have hx := hfail (k + 1) (Nat.succ_le_succ hk)
      have harith : nonce + (k + 1) = nonce + 1 + k := by omega
      rw [harith] at hx
      simpa using hx)
    rw [hrec]
    have harith : nonce + 1 + f = nonce + (f + 1) := by omega
    simp [Block.nonce_update_collapse, harith]

/-- If some nonce in the tried range satisfies the proof-of-work check, the
mining loop returns a block whose re-derived digest passes the check for its
(unchanged) difficulty. -/
theorem Block.mineAux_success (digest : List Nat → List Nat) :
    ∀ fuel nonce b,
      (∃ k, k < fuel ∧
        check_difficulty (Block.hashOf digest { b with nonce := nonce + k }) b.difficulty = true) →
      check_difficulty (Block.hashOf digest (Block.mineAux digest fuel nonce b))
        (Block.mineAux digest fuel nonce b).difficulty = true := by
  intro fuel
  induction fuel with
  | zero =>
    intro nonce b h
    obtain ⟨k, hk, _⟩ := h
    exact absurd hk (Nat.not_lt_zero k)
  | succ f ih =>
    intro nonce b h
    rw [Block.mineAux_succ]
    by_cases hc : check_difficulty (Block.hashOf digest { b with nonce := nonce }) b.difficulty = true
    · rw [if_pos hc]
      exact hc
    · rw [if_neg hc]
      obtain ⟨k, hk, hkc⟩ := h
      cases k with
      | zero =>
        simp only [Nat.add_zero] at hkc
        exact absurd hkc hc
      | succ j =>
        apply ih (nonce + 1) { b with nonce := nonce }
        refine ⟨j, Nat.lt_of_succ_lt_succ hk, ?_⟩
        have harith : nonce + (j + 1) = nonce + 1 + j := by omega
        rw [harith] at hkc
        simpa using hkc

/-- The input hashes consumed by a list of transactions. -/
def txsInputs (txs : List Transaction) : Finset Output :=
  txs.foldr (fun t acc => t.input_hashes ∪ acc) ∅

/-- The output hashes produced by a list of transactions. -/
def txsOutputs (txs : List Transaction) : Finset Output :=
  txs.foldr (fun t acc => t.output_hashes ∪ acc) ∅

/-- A coinbase transaction consumes no input hashes. -/
theorem is_coinbase_input_hashes {t : Transaction} (h : t.is_coinbase = true) :
    t.input_hashes = ∅ := by
  unfold Transaction.is_coinbase at h
  unfold Transaction.input_hashes
  rw [List.isEmpty_iff] at h
  rw [h]
  rfl

/-- On success, the settlement loop returns the accumulated sets extended by
exactly the union of the remaining transactions' input and output hashes, in
particular independent of any order of accumulation. -/
theorem settleLoop_ok (unspent : Finset Output) :
    ∀ txs s c f s2 c2 f2,
      settleLoop unspent txs s c f = .ok (s2, c2, f2) →
      s2 = s ∪ txsInputs txs ∧ c2 = c ∪ txsOutputs txs := by
  intro txs
  induction txs with
  | nil =>
    intro s c f s2 c2 f2 h
    simp only [settleLoop, Except.ok.injEq, Prod.mk.injEq] at h
    obtain ⟨hs, hc, _⟩ := h
    subst hs; subst hc
    constructor <;> simp [txsInputs, txsOutputs]
  | cons t rest ih =>
    intro s c f s2 c2 f2 h
    simp only [settleLoop] at h
    split at h
    · exact absurd h (by simp)
    · split at h
      · exact absurd h (by simp)
      · have := ih (s ∪ t.input_hashes) (c ∪ t.output_hashes)
          (f + (t.input_value - t.output_value)) s2 c2 f2 h
        obtain ⟨hs, hc⟩ := this
        constructor
        · rw [hs]
          simp [txsInputs, Finset.union_assoc]
        · rw [hc]
          simp [txsOutputs, Finset.union_assoc]

/-- The settlement loop only ever fails with `InvalidInput` or
`InsufficientInputValue`. -/
theorem settleLoop_error_cases (unspent : Finset Output) :
    ∀ txs s c f e, settleLoop unspent txs s c f = .error e →
      e = .InvalidInput ∨ e = .InsufficientInputValue := by
  intro txs
  induction txs with
  | nil =>
    intro s c f e h
    simp only [settleLoop] at h
    exact Except.noConfusion h
  | cons t rest ih =>
    intro s c f e h
    simp only [settleLoop] at h
    split at h
    · simp only [Except.error.injEq] at h
      exact Or.inl h.symm
    · split at h
      · simp only [Except.error.injEq] at h
        exact Or.inr h.symm
      · exact ih _ _ _ e h

/-- The settlement loop over an appended list runs the first part and, on its
success, continues with the second from the accumulated state. -/
theorem settleLoop_append (unspent : Finset Output) :
    ∀ xs ys s c f,
      settleLoop unspent (xs ++ ys) s c f =
        (match settleLoop unspent xs s c f with
         | .ok (s2, c2, f2) => settleLoop unspent ys s2 c2 f2
         | .error e => .error e) := by
  intro xs
  induction xs with
  | nil => intro ys s c f; simp [settleLoop]
  | cons t rest ih =>
    intro ys s c f
    simp only [List.cons_append, settleLoop]
    split
    · rfl
    · split
      · rfl
      · exact ih ys _ _ _

/-- Settlement-and-commit either leaves the chain untouched or succeeds. -/
theorem settleAndCommit_cases (bc : BlockChain) (block : Block) :
    (settleAndCommit bc block).snd = bc ∨ (settleAndCommit bc block).fst = .ok () := by
  unfold settleAndCommit
  split
  · exact Or.inr rfl
  · split
    · exact Or.inl rfl
    · split
      · exact Or.inl rfl
      · split
        · exact Or.inl rfl
        · exact Or.inr rfl

/-- Settlement-and-commit never mutates the chain on failure. -/
theorem settleAndCommit_error_frame (bc : BlockChain) (block : Block)
    (e : BlockValidationError) (h : (settleAndCommit bc block).fst = .error e) :
    (settleAndCommit bc block).snd = bc := by
  rcases settleAndCommit_cases bc block with h2 | h2
  · exact h2
  · rw [h2] at h
    exact Except.noConfusion h

/-- The structural errors are never produced by settlement-and-commit. -/
theorem settleAndCommit_error_cases (bc : BlockChain) (block : Block)
    (e : BlockValidationError) (h : (settleAndCommit bc block).fst = .error e) :
    e = .InvalidInput ∨ e = .InsufficientInputValue ∨ e = .InvalidCoinbaseTransaction := by
  unfold settleAndCommit at h
  split at h
  · simp at h
  · split at h
    · simp only [Except.error.injEq] at h
      exact Or.inr (Or.inr h.symm)
    · split at h
      · rename_i e2 heq
        simp only [Except.error.injEq] at h
        subst h
        rcases settleLoop_error_cases _ _ _ _ _ _ heq with h2 | h2
        · exact Or.inl h2
        · exact Or.inr (Or.inl h2)
      · split at h
        · simp only [Except.error.injEq] at h
          exact Or.inr (Or.inr h.symm)
        · simp at h

/-- On success, settlement-and-commit appends exactly the submitted block and
replaces the UTXO set by removing the block's consumed input hashes and
inserting its produced output hashes. -/
theorem settleAndCommit_ok (bc : BlockChain) (block : Block) (u : Unit) (bc2 : BlockChain)
    (h : settleAndCommit bc block = (.ok u, bc2)) :
    bc2.blocks = bc.blocks ++ [block] ∧
      bc2.unspent_outputs = (bc.unspent_outputs \ blockSpent block) ∪ blockCreated block := by
  unfold settleAndCommit at h
  split at h
  · rename_i htx
    simp only [Prod.mk.injEq] at h
    obtain ⟨_, hbc⟩ := h
    subst hbc
    simp [blockSpent, blockCreated, htx]
  · rename_i coinbase rest htx
    split at h
    · simp at h
    · rename_i hcb
      split at h
      · simp at h
      · rename_i s2 c2 f2 heq
        split at h
        · simp at h
        · simp only [Prod.mk.injEq] at h
          obtain ⟨_, hbc⟩ := h
          subst hbc
          refine ⟨rfl, ?_⟩
          obtain ⟨hs, hc⟩ := settleLoop_ok bc.unspent_outputs rest ∅ ∅ 0 s2 c2 f2 heq
          have hcb2 : coinbase.is_coinbase = true := not_not.mp hcb
          have hcbh := is_coinbase_input_hashes hcb2
          subst hs
          subst hc
          show bc.unspent_outputs \ (∅ ∪ txsInputs rest) ∪
              ((∅ ∪ txsOutputs rest) ∪ coinbase.output_hashes) = _
          simp only [blockSpent, blockCreated, htx, List.foldr_cons, hcbh, txsInputs, txsOutputs]
          ext x
          simp only [Finset.mem_union, Finset.mem_sdiff, Finset.empty_union]
          tauto

/-- A submission either leaves the chain untouched or succeeds. -/
theorem update_with_block_cases (digest : List Nat → List Nat) (bc : BlockChain) (block : Block) :
    (update_with_block digest bc block).snd = bc ∨
      (update_with_block digest bc block).fst = .ok () := by
  by_cases h1 : block.index = bc.blocks.length
  · by_cases h2 : check_difficulty (Block.hashOf digest block) block.difficulty = true
    · cases hL : bc.blocks.getLast? with
      | some p =>
        simp only [update_with_block, hL]
        rw [if_neg (by simp [h1]), if_neg (by simp [h2])]
        by_cases h3 : block.timestamp ≤ p.timestamp
        · rw [if_pos h3]; exact Or.inl rfl
        · rw [if_neg h3]
          by_cases h4 : block.previous_block_hash = p.hash
          · rw [if_neg (by simp [h4])]
            exact settleAndCommit_cases bc block
          · rw [if_pos h4]; exact Or.inl rfl
      | none =>
        simp only [update_with_block, hL]
        rw [if_neg (by simp [h1]), if_neg (by simp [h2])]
        by_cases h3 : block.previous_block_hash = List.replicate 32 0
        · rw [if_neg (by simp [h3])]
          exact settleAndCommit_cases bc block
        · rw [if_pos h3]; exact Or.inl rfl
    · simp only [update_with_block]
      rw [if_neg (by simp [h1]), if_pos h2]
      exact Or.inl rfl
  · simp only [update_with_block]
    rw [if_pos h1]
    exact Or.inl rfl

/-- Rejection is a no-op on the ledger state. -/
theorem update_with_block_error_frame (digest : List Nat → List Nat) (bc : BlockChain)
    (block : Block) (e : BlockValidationError)
    (h : (update_with_block digest bc block).fst = .error e) :
    (update_with_block digest bc block).snd = bc := by
  rcases update_with_block_cases digest bc block with h2 | h2
  · exact h2
  · rw [h2] at h
    exact Except.noConfusion h

/-- Full characterization of a successful submission: the passed checks and
the state delta. -/
theorem update_with_block_ok (digest : List Nat → List Nat) (bc : BlockChain) (block : Block)
    (u : Unit) (bc2 : BlockChain) (h : update_with_block digest bc block = (.ok u, bc2)) :
    block.index = bc.blocks.length ∧
      check_difficulty (Block.hashOf digest block) block.difficulty = true ∧
      (∀ p, bc.blocks.getLast? = some p →
        p.timestamp < block.timestamp ∧ block.previous_block_hash = p.hash) ∧
      (bc.blocks.getLast? = none → block.previous_block_hash = List.replicate 32 0) ∧
      bc2.blocks = bc.blocks ++ [block] ∧
      bc2.unspent_outputs = (bc.unspent_outputs \ blockSpent block) ∪ blockCreated block := by
  by_cases h1 : block.index = bc.blocks.length
  · by_cases h2 : check_difficulty (Block.hashOf digest block) block.difficulty = true
    · cases hL : bc.blocks.getLast? with
      | some p =>
        simp only [update_with_block, hL] at h
        rw [if_neg (by simp [h1]), if_neg (by simp [h2])] at h
        by_cases h3 : block.timestamp ≤ p.timestamp
        · rw [if_pos h3] at h; simp at h
        · rw [if_neg h3] at h
          by_cases h4 : block.previous_block_hash = p.hash
          · rw [if_neg (by simp [h4])] at h
            obtain ⟨hb, hu⟩ := settleAndCommit_ok bc block u bc2 h
            refine ⟨h1, h2, ?_, ?_, hb, hu⟩
            · intro p2 hp2
              cases hp2
              exact ⟨Nat.lt_of_not_le h3, h4⟩
            · intro hnone
              exact Option.noConfusion hnone
          · rw [if_pos h4] at h; simp at h
      | none =>
        simp only [update_with_block, hL] at h
        rw [if_neg (by simp [h1]), if_neg (by simp [h2])] at h
        by_cases h3 : block.previous_block_hash = List.replicate 32 0
        · rw [if_neg (by simp [h3])] at h
          obtain ⟨hb, hu⟩ := settleAndCommit_ok bc block u bc2 h
          refine ⟨h1, h2, ?_, ?_, hb, hu⟩
          · intro p2 hp2
            exact Option.noConfusion hp2
          · intro _
            exact h3
        · rw [if_pos h3] at h; simp at h
    · simp only [update_with_block] at h
      rw [if_neg (by simp [h1]), if_pos h2] at h
      simp at h
  · simp only [update_with_block] at h
    rw [if_pos h1] at h
    simp at h

/-- No hash value satisfies the proof-of-work check at difficulty 0 (the
check demands `0 > value`, impossible for naturals). -/
theorem check_difficulty_zero (h : Hash) : check_difficulty h 0 = false := by
  simp [check_difficulty]

/-- C2: whenever `update_with_block` returns an error of the closed
enumeration `BlockValidationError`, the ledger state (the `blocks` sequence
and the `unspent_outputs` set) after the call is exactly the state before. -/
theorem C2_rejection_is_no_op (digest : List Nat → List Nat) (bc : BlockChain) (block : Block)
    (e : BlockValidationError) (h : (update_with_block digest bc block).fst = .error e) :
    (update_with_block digest bc block).snd = bc :=
  update_with_block_error_frame digest bc block e h

/-- Witness for C2 at a concrete rejected block. -/
theorem C2_rejection_is_no_op_witness :
    (update_with_block zeroDigest BlockChain.new cxBadIndex).fst = .error .MismatchedIndex ∧
      (update_with_block zeroDigest BlockChain.new cxBadIndex).snd = BlockChain.new :=
  ⟨by decide, C2_rejection_is_no_op zeroDigest BlockChain.new cxBadIndex .MismatchedIndex (by decide)⟩

/-- C3 counterexample: `mine()` does not return only on success for every
difficulty value — at difficulty 0 it returns after exhausting the nonce
range, and the re-derived digest of the returned block, read as its leading
128 bits, is not strictly less than the block's difficulty. -/
theorem C3_mine_pow_counterexample :
    ¬ difficulty_bytes_as_u128 (Block.hashOf zeroDigest (Block.mine zeroDigest cxZeroDiff)) <
      (Block.mine zeroDigest cxZeroDiff).difficulty := by
  intro hlt
  have hd : (Block.mine zeroDigest cxZeroDiff).difficulty = cxZeroDiff.difficulty :=
    Block.mineAux_difficulty zeroDigest (2 ^ 64 - 1) 0 cxZeroDiff
  rw [hd] at hlt
  exact Nat.not_lt_zero _ hlt

/-- C3 (amended): if some nonce in the tried range `0 … 2 ^ 64 - 2` makes the
block's re-derived digest satisfy the difficulty constraint, then after
`mine()` returns, re-deriving the digest of the block's canonical bytes and
interpreting its leading 128 bits as an unsigned integer yields a value
strictly less than the block's difficulty. -/
theorem C3_mined_block_satisfies_pow (digest : List Nat → List Nat) (b : Block)
    (h : ∃ n, n < 2 ^ 64 - 1 ∧
      check_difficulty (Block.hashOf digest { b with nonce := n }) b.difficulty = true) :
    difficulty_bytes_as_u128 (Block.hashOf digest (Block.mine digest b)) <
      (Block.mine digest b).difficulty := by
  have hc := Block.mineAux_success digest (2 ^ 64 - 1) 0 b (by
    obtain ⟨n, hn, hcn⟩ := h
    exact ⟨n, hn, by simpa using hcn⟩)
  unfold Block.mine
  simpa [check_difficulty] using hc

/-- Witness for C3 (amended) at difficulty 1 under the zero digest: nonce 0
already succeeds. -/
theorem C3_mined_block_satisfies_pow_witness :
    (0 < 2 ^ 64 - 1 ∧
      check_difficulty (Block.hashOf zeroDigest { wB0 with nonce := 0 }) wB0.difficulty = true) ∧
    difficulty_bytes_as_u128 (Block.hashOf zeroDigest (Block.mine zeroDigest wB0)) <
      (Block.mine zeroDigest wB0).difficulty :=
  ⟨⟨by decide, by decide⟩, C3_mined_block_satisfies_pow zeroDigest wB0 ⟨0, by decide, by decide⟩⟩

/-- C7 counterexample: `mine()` does not mutate `nonce` only on success — at
difficulty 0 no nonce can ever succeed (every proof-of-work check is false),
yet the returned block's nonce has been changed to the last tried value. -/
theorem C7_mine_frame_counterexample :
    Block.mine zeroDigest cxZeroDiff = { cxZeroDiff with nonce := 2 ^ 64 - 2 } ∧
      (2 : Nat) ^ 64 - 2 ≠ cxZeroDiff.nonce ∧
      ∀ h2 : Hash, check_difficulty h2 cxZeroDiff.difficulty = false := by
  refine ⟨?_, by decide, fun h2 => check_difficulty_zero h2⟩
  have he := Block.mineAux_exhaust zeroDigest (2 ^ 64 - 2) 0 cxZeroDiff
    (fun k _ => check_difficulty_zero _)
  unfold Block.mine
  rw [show (2 : Nat) ^ 64 - 1 = (2 ^ 64 - 2) + 1 by norm_num]
  simpa using he

/-- C7 (amended): mining mutates only the `hash` and `nonce` fields — index,
timestamp, previous hash, transactions and difficulty are never mutated —
and the `hash` field is mutated only on success, i.e. only to a value
satisfying the proof-of-work check. -/
theorem C7_mine_frame_amended (digest : List Nat → List Nat) (b : Block) :
    (Block.mine digest b).index = b.index ∧
    (Block.mine digest b).timestamp = b.timestamp ∧
    (Block.mine digest b).previous_block_hash = b.previous_block_hash ∧
    (Block.mine digest b).transactions = b.transactions ∧
    (Block.mine digest b).difficulty = b.difficulty ∧
    ((Block.mine digest b).hash = b.hash ∨
      check_difficulty (Block.mine digest b).hash (Block.mine digest b).difficulty = true) := by
  unfold Block.mine
  obtain ⟨h1, h2, h3, h4, h5⟩ := Block.mineAux_frame digest (2 ^ 64 - 1) 0 b
  exact ⟨h1, h2, h3, h4, h5, Block.mineAux_hash_cases digest (2 ^ 64 - 1) 0 b⟩

/-- C10: `mine()` is a total function that tries the nonces
`0 … u64::MAX - 1` in order (`u64::MAX` is never attempted), and if every
tried nonce fails the proof-of-work check it returns normally with the hash
still the all-zero placeholder set by `Block::new` and the nonce at the last
attempted value `u64::MAX - 1 = 2 ^ 64 - 2`. -/
theorem C10_mine_exhaustion_behavior (digest : List Nat → List Nat) (index timestamp : Nat)
    (prev : Hash) (txs : List Transaction) (difficulty : Nat)
    (hfail : ∀ n, n < 2 ^ 64 - 1 →
      check_difficulty (Block.hashOf digest
        { Block.new index timestamp prev txs difficulty with nonce := n }) difficulty = false) :
    Block.mine digest (Block.new index timestamp prev txs difficulty) =
      { Block.new index timestamp prev txs difficulty with nonce := 2 ^ 64 - 2 } := by
  have he := Block.mineAux_exhaust digest (2 ^ 64 - 2) 0
    (Block.new index timestamp prev txs difficulty)
    (fun k hk => hfail (0 + k) (by omega))
  unfold Block.mine
  rw [show (2 : Nat) ^ 64 - 1 = (2 ^ 64 - 2) + 1 by norm_num]
  simpa using he

/-- Witness for C10 at difficulty 0, where every proof-of-work check fails. -/
theorem C10_mine_exhaustion_behavior_witness :
    Block.mine zeroDigest (Block.new 0 0 (List.replicate 32 0) [] 0) =
      { Block.new 0 0 (List.replicate 32 0) [] 0 with nonce := 2 ^ 64 - 2 } :=
  C10_mine_exhaustion_behavior zeroDigest 0 0 (List.replicate 32 0) [] 0
    (fun _ _ => check_difficulty_zero _)

/-- One step of the removal/insertion UTXO update, rewritten as a set
difference of accumulated sets, valid when the inserted set is fresh. -/
theorem sdiff_union_step (C S Sb Cb : Finset Output) (hfresh : Cb ∩ (S ∪ Sb) = ∅) :
    ((C \ S) \ Sb) ∪ Cb = (C ∪ Cb) \ (S ∪ Sb) := by
  ext x
  have hx := Finset.eq_empty_iff_forall_not_mem.mp hfresh x
  simp only [Finset.mem_inter, Finset.mem_union, not_and, not_or] at hx
  simp only [Finset.mem_union, Finset.mem_sdiff, not_or]
  constructor
  · rintro (⟨⟨hc, hs⟩, hsb⟩ | hcb)
    · exact ⟨Or.inl hc, hs, hsb⟩
    · exact ⟨Or.inr hcb, hx hcb⟩
  · rintro ⟨hc | hcb, hs, hsb⟩
    · exact Or.inl ⟨⟨hc, hs⟩, hsb⟩
    · exact Or.inr hcb

/-- Invariant carried along `applyBlocks`: when the UTXO set is the
difference of an accumulated created set and spent set, and every accepted
block's created hashes are fresh, the final UTXO set is the difference of
the extended accumulations. -/
theorem applyBlocks_unspent_aux (digest : List Nat → List Nat) :
    ∀ bs (bc st : BlockChain) (C S : Finset Output),
      applyBlocks digest bc bs = some st → bc.unspent_outputs = C \ S →
      freshB S bs = true →
      st.unspent_outputs = (C ∪ chainCreated bs) \ (S ∪ chainSpent bs) := by
  intro bs
  induction bs with
  | nil =>
    intro bc st C S happ hinv _
    simp only [applyBlocks, Option.some.injEq] at happ
    subst happ
    simpa [chainCreated, chainSpent] using hinv
  | cons b rest ih =>
    intro bc st C S happ hinv hfresh
    simp only [applyBlocks] at happ
    simp only [freshB, Bool.and_eq_true, decide_eq_true_eq] at hfresh
    obtain ⟨hfresh1, hfresh2⟩ := hfresh
    cases hu : update_with_block digest bc b with
    | mk fst snd =>
      rw [hu] at happ
      cases fst with
      | error e => exact Option.noConfusion happ
      | ok u =>
        obtain ⟨_, _, _, _, _, hunspent⟩ := update_with_block_ok digest bc b u snd hu
        have hstep : snd.unspent_outputs =
            (C ∪ blockCreated b) \ (S ∪ blockSpent b) := by
          rw [hunspent, hinv]
          exact sdiff_union_step C S (blockSpent b) (blockCreated b) hfresh1
        have := ih snd st (C ∪ blockCreated b) (S ∪ blockSpent b) happ hstep hfresh2
        rw [this]
        simp [chainCreated, chainSpent, Finset.union_assoc]

/-- C1 counterexample: the literal invariant fails on a reachable state — a
chain whose third block's coinbase is byte-identical to the genesis coinbase
re-creates the already-spent output hash of `oA`, so `unspent_outputs`
contains `oA` while the claimed difference set does not. -/
theorem C1_utxo_invariant_counterexample :
    ¬ (∀ st, applyBlocks zeroDigest BlockChain.new [wB0, wB1, wB2] = some st →
        st.unspent_outputs = chainCreated [wB0, wB1, wB2] \ chainSpent [wB0, wB1, wB2]) := by
  intro hall
  have hmem : ∀ st, applyBlocks zeroDigest BlockChain.new [wB0, wB1, wB2] = some st →
      oA ∈ st.unspent_outputs := by decide
  have hsome : (applyBlocks zeroDigest BlockChain.new [wB0, wB1, wB2]).isSome = true := by decide
  obtain ⟨st, hst⟩ := Option.isSome_iff_exists.mp hsome
  have h1 := hall st hst
  have h2 := hmem st hst
  rw [h1] at h2
  have h3 : oA ∉ chainCreated [wB0, wB1, wB2] \ chainSpent [wB0, wB1, wB2] := by decide
  exact h3 h2

/-- C1 (amended): for every ledger state reachable from `BlockChain.new` by
successful `update_with_block` calls, provided no accepted block produces an
output hash already consumed as an input hash up to and including that block
(freshness), `unspent_outputs` equals the set of output hashes produced by
the transactions of all accepted blocks minus the set of input hashes
consumed by those transactions, over coinbase and ordinary transactions
alike. -/
theorem C1_utxo_invariant_amended (digest : List Nat → List Nat) (bs : List Block)
    (st : BlockChain) (happ : applyBlocks digest BlockChain.new bs = some st)
    (hfresh : freshB ∅ bs = true) :
    st.unspent_outputs = chainCreated bs \ chainSpent bs := by
  have := applyBlocks_unspent_aux digest bs BlockChain.new st ∅ ∅ happ (by rfl) hfresh
  simpa using this

/-- Witness for C1 (amended) on the fresh two-block chain. -/
theorem C1_utxo_invariant_witness :
    (applyBlocks zeroDigest BlockChain.new [wB0, wB1] = some wSt ∧
      freshB ∅ [wB0, wB1] = true) ∧
    wSt.unspent_outputs = chainCreated [wB0, wB1] \ chainSpent [wB0, wB1] :=
  ⟨⟨by decide, by decide⟩,
    C1_utxo_invariant_amended zeroDigest [wB0, wB1] wSt (by decide) (by decide)⟩

/-- The adjacency required of consecutive accepted blocks: stored-hash
linkage and strictly increasing timestamps. -/
def adjacentLinked (a b : Block) : Prop :=
  b.previous_block_hash = a.hash ∧ a.timestamp < b.timestamp

/-- Accepted chains stay pairwise linked: `applyBlocks` preserves
`List.Chain' adjacentLinked` on the block sequence. -/
theorem applyBlocks_chain (digest : List Nat → List Nat) :
    ∀ bs (bc st : BlockChain), applyBlocks digest bc bs = some st →
      List.Chain' adjacentLinked bc.blocks → List.Chain' adjacentLinked st.blocks := by
  intro bs
  induction bs with
  | nil =>
    intro bc st happ hchain
    simp only [applyBlocks, Option.some.injEq] at happ
    subst happ
    exact hchain
  | cons b rest ih =>
    intro bc st happ hchain
    simp only [applyBlocks] at happ
    cases hu : update_with_block digest bc b with
    | mk fst snd =>
      rw [hu] at happ
      cases fst with
      | error e => exact Option.noConfusion happ
      | ok u =>
        obtain ⟨_, _, hlink, _, hblocks, _⟩ := update_with_block_ok digest bc b u snd hu
        apply ih snd st happ
        rw [hblocks]
        apply List.Chain'.append hchain (List.chain'_singleton b)
        intro x hx y hy
        simp only [List.head?_cons, Option.mem_def, Option.some.injEq] at hy
        subst hy
        obtain ⟨hts, hprev⟩ := hlink x (Option.mem_def.mp hx)
        exact ⟨hprev, hts⟩

/-- C4: in every chain of blocks accepted by successive successful
`update_with_block` calls from the empty chain, each non-genesis block's
`previous_block_hash` equals the stored `hash` field of its predecessor and
its timestamp is strictly greater than its predecessor's. -/
theorem C4_chain_linkage (digest : List Nat → List Nat) (bs : List Block) (st : BlockChain)
    (happ : applyBlocks digest BlockChain.new bs = some st) (i : Nat)
    (hi : i + 1 < st.blocks.length) :
    (st.blocks.get ⟨i + 1, hi⟩).previous_block_hash =
      (st.blocks.get ⟨i, Nat.lt_of_succ_lt hi⟩).hash ∧
    (st.blocks.get ⟨i, Nat.lt_of_succ_lt hi⟩).timestamp <
      (st.blocks.get ⟨i + 1, hi⟩).timestamp := by
  have hchain := applyBlocks_chain digest bs BlockChain.new st happ (by
    show List.Chain' adjacentLinked []
    exact List.chain'_nil)
  have h := List.chain'_iff_get.mp hchain i (by omega)
  exact ⟨h.1, h.2⟩

/-- Witness for C4 on the concrete two-block chain. -/
theorem C4_chain_linkage_witness :
    applyBlocks zeroDigest BlockChain.new [wB0, wB1] = some wSt ∧
    (wSt.blocks.get ⟨1, by decide⟩).previous_block_hash =
      (wSt.blocks.get ⟨0, by decide⟩).hash ∧
    (wSt.blocks.get ⟨0, by decide⟩).timestamp < (wSt.blocks.get ⟨1, by decide⟩).timestamp :=
  ⟨by decide, C4_chain_linkage zeroDigest [wB0, wB1] wSt (by decide) 0 (by decide)⟩

/-- C5 counterexample: a block whose later non-coinbase transaction has an
input violation is not rejected with `InvalidInput` when an earlier
transaction fails the value check first — the code returns
`InsufficientInputValue` instead. -/
theorem C5_invalid_input_counterexample :
    spec_inputViolation BlockChain.new.unspent_outputs cx5.transactions.tail = true ∧
      update_with_block zeroDigest BlockChain.new cx5 =
        (.error .InsufficientInputValue, BlockChain.new) :=
  ⟨by decide, by decide⟩

/-- C5 (amended): `update_with_block` rejects a block with `InvalidInput`,
leaving state unchanged, whenever the block passes the index, proof-of-work,
linkage/genesis and coinbase checks, every non-coinbase transaction before
some transaction `t` passes its input and value checks, and `t`'s
`input_hashes` are not a subset of the current `unspent_outputs` or meet the
input hashes already spent earlier in the same block; both violations map to
the same `InvalidInput` error. -/
theorem C5_invalid_input_amended (digest : List Nat → List Nat) (bc : BlockChain) (block : Block)
    (cb t : Transaction) (pre post : List Transaction) (s c : Finset Output) (f : Nat)
    (hidx : block.index = bc.blocks.length)
    (hpow : check_difficulty (Block.hashOf digest block) block.difficulty = true)
    (hlink : linkageOk bc block = true)
    (htx : block.transactions = cb :: (pre ++ t :: post))
    (hcb : cb.is_coinbase = true)
    (hpre : settleLoop bc.unspent_outputs pre ∅ ∅ 0 = .ok (s, c, f))
    (hviol : ¬(t.input_hashes \ bc.unspent_outputs = ∅) ∨ ¬(t.input_hashes ∩ s = ∅)) :
    update_with_block digest bc block = (.error .InvalidInput, bc) := by
  have hsl : settleLoop bc.unspent_outputs (pre ++ t :: post) ∅ ∅ 0 = .error .InvalidInput := by
    rw [settleLoop_append, hpre]
    simp only [settleLoop]
    rw [if_pos hviol]
  have hsc : settleAndCommit bc block = (.error .InvalidInput, bc) := by
    simp only [settleAndCommit, htx]
    rw [if_neg (by simp [hcb])]
    simp only [hsl]
  cases hL : bc.blocks.getLast? with
  | some p =>
    have hl2 : p.timestamp < block.timestamp ∧ block.previous_block_hash = p.hash := by
      have h2 := hlink
      unfold linkageOk at h2
      rw [hL] at h2
      simpa using h2
    simp only [update_with_block, hL]
    rw [if_neg (by simp [hidx]), if_neg (by simp [hpow]),
      if_neg (Nat.not_le.mpr hl2.1), if_neg (by simp [hl2.2])]
    exact hsc
  | none =>
    have hl2 : block.previous_block_hash = List.replicate 32 0 := by
      have h2 := hlink
      unfold linkageOk at h2
      rw [hL] at h2
      simpa using h2
    simp only [update_with_block, hL]
    rw [if_neg (by simp [hidx]), if_neg (by simp [hpow]), if_neg (by simp [hl2])]
    exact hsc

/-- Witness for C5 (amended): a genesis-position block whose only
non-coinbase transaction spends a non-existent output is rejected with
`InvalidInput`, state unchanged. -/
theorem C5_invalid_input_witness :
    (cx5v.index = BlockChain.new.blocks.length ∧
      check_difficulty (Block.hashOf zeroDigest cx5v) cx5v.difficulty = true ∧
      linkageOk BlockChain.new cx5v = true ∧
      cx5v.transactions = cbX :: ([] ++ txBadInput :: []) ∧
      cbX.is_coinbase = true ∧
      settleLoop BlockChain.new.unspent_outputs [] ∅ ∅ 0 = .ok (∅, ∅, 0) ∧
      (¬(txBadInput.input_hashes \ BlockChain.new.unspent_outputs = ∅) ∨
        ¬(txBadInput.input_hashes ∩ (∅ : Finset Output) = ∅))) ∧
    update_with_block zeroDigest BlockChain.new cx5v = (.error .InvalidInput, BlockChain.new) :=
  ⟨⟨by decide, by decide, by decide, by decide, by decide, by decide, by decide⟩,
    C5_invalid_input_amended zeroDigest BlockChain.new cx5v cbX txBadInput [] [] ∅ ∅ 0
      (by decide) (by decide) (by decide) (by decide) (by decide) (by decide) (by decide)⟩

/-- C6 counterexample: a block at genesis position whose
`previous_block_hash` is exactly the 32-byte zero sentinel is nevertheless
not accepted (its difficulty 0 fails the proof-of-work check, which runs
before the sentinel check), refuting the claimed "accepted iff zero
sentinel". -/
theorem C6_genesis_counterexample :
    cx6.index = 0 ∧ cx6.previous_block_hash = List.replicate 32 0 ∧
      (update_with_block zeroDigest BlockChain.new cx6).fst ≠ .ok () :=
  ⟨rfl, rfl, by decide⟩

/-- C6 (amended): for a block submitted at genesis position (empty chain,
index 0): acceptance requires the 32-byte zero sentinel; and provided the
block passes the proof-of-work check, it is rejected with
`InvalidGenesisBlockFormat` exactly when its sentinel is non-zero. -/
theorem C6_genesis_amended (digest : List Nat → List Nat) (bc : BlockChain) (b : Block)
    (hempty : bc.blocks = []) (hidx : b.index = 0) :
    ((update_with_block digest bc b).fst = .ok () →
      b.previous_block_hash = List.replicate 32 0) ∧
    (check_difficulty (Block.hashOf digest b) b.difficulty = true →
      ((update_with_block digest bc b).fst = .error .InvalidGenesisBlockFormat ↔
        b.previous_block_hash ≠ List.replicate 32 0)) := by
  have hL : bc.blocks.getLast? = none := by rw [hempty]; rfl
  constructor
  · intro hok
    have hpair : ((update_with_block digest bc b).fst, (update_with_block digest bc b).snd) =
        update_with_block digest bc b := Prod.mk.eta
    rw [hok] at hpair
    obtain ⟨_, _, _, hgen, _, _⟩ :=
      update_with_block_ok digest bc b () (update_with_block digest bc b).snd hpair.symm
    exact hgen hL
  · intro hpow
    constructor
    · intro herr
      intro hzero
      have hred : update_with_block digest bc b = settleAndCommit bc b := by
        simp only [update_with_block, hL]
        rw [if_neg (by simp [hidx, hempty]), if_neg (by simp [hpow]), if_neg (by simp [hzero])]
      rw [hred] at herr
      rcases settleAndCommit_error_cases bc b _ herr with h | h | h <;>
        exact BlockValidationError.noConfusion h
    · intro hne
      simp only [update_with_block, hL]
      rw [if_neg (by simp [hidx, hempty]), if_neg (by simp [hpow]), if_pos hne]

/-- Witness for C6 (amended): a non-zero sentinel at genesis position that
passes proof-of-work is rejected with `InvalidGenesisBlockFormat`. -/
theorem C6_genesis_amended_witness :
    (BlockChain.new.blocks = [] ∧ cx6bad.index = 0 ∧
      check_difficulty (Block.hashOf zeroDigest cx6bad) cx6bad.difficulty = true ∧
      cx6bad.previous_block_hash ≠ List.replicate 32 0) ∧
    (update_with_block zeroDigest BlockChain.new cx6bad).fst = .error .InvalidGenesisBlockFormat :=
  ⟨⟨rfl, rfl, by decide, by decide⟩,
    ((C6_genesis_amended zeroDigest BlockChain.new cx6bad rfl rfl).2 (by decide)).mpr (by decide)⟩

/-- C8: a block with an empty transactions list that passes the index,
proof-of-work and linkage/genesis checks is accepted: `update_with_block`
returns `Ok`, appends the block to `blocks`, and leaves `unspent_outputs`
unchanged — all settlement logic, including the coinbase check, is
skipped. -/
theorem C8_empty_transactions_accepted (digest : List Nat → List Nat) (bc : BlockChain)
    (b : Block) (htx : b.transactions = []) (hidx : b.index = bc.blocks.length)
    (hpow : check_difficulty (Block.hashOf digest b) b.difficulty = true)
    (hlink : linkageOk bc b = true) :
    update_with_block digest bc b = (.ok (), ⟨bc.blocks ++ [b], bc.unspent_outputs⟩) := by
  have hsc : settleAndCommit bc b = (.ok (), ⟨bc.blocks ++ [b], bc.unspent_outputs⟩) := by
    unfold settleAndCommit
    rw [htx]
  cases hL : bc.blocks.getLast? with
  | some p =>
    have hl2 : p.timestamp < b.timestamp ∧ b.previous_block_hash = p.hash := by
      have h2 := hlink
      unfold linkageOk at h2
      rw [hL] at h2
      simpa using h2
    simp only [update_with_block, hL]
    rw [if_neg (by simp [hidx]), if_neg (by simp [hpow]),
      if_neg (Nat.not_le.mpr hl2.1), if_neg (by simp [hl2.2])]
    exact hsc
  | none =>
    have hl2 : b.previous_block_hash = List.replicate 32 0 := by
      have h2 := hlink
      unfold linkageOk at h2
      rw [hL] at h2
      simpa using h2
    simp only [update_with_block, hL]
    rw [if_neg (by simp [hidx]), if_neg (by simp [hpow]), if_neg (by simp [hl2])]
    exact hsc

/-- Witness for C8 on a concrete empty-transaction genesis block. -/
theorem C8_empty_transactions_accepted_witness :
    (cx8.transactions = [] ∧ cx8.index = BlockChain.new.blocks.length ∧
      check_difficulty (Block.hashOf zeroDigest cx8) cx8.difficulty = true ∧
      linkageOk BlockChain.new cx8 = true) ∧
    update_with_block zeroDigest BlockChain.new cx8 =
      (.ok (), ⟨BlockChain.new.blocks ++ [cx8], BlockChain.new.unspent_outputs⟩) :=
  ⟨⟨rfl, rfl, by decide, by decide⟩,
    C8_empty_transactions_accepted zeroDigest BlockChain.new cx8 rfl rfl (by decide) (by decide)⟩

/-- The result status of settlement-and-commit does not depend on the
submitted block's stored `hash` field. -/
theorem settleAndCommit_fst_hash_update (bc : BlockChain) (block : Block) (h : Hash) :
    (settleAndCommit bc { block with hash := h }).fst = (settleAndCommit bc block).fst := by
  have htx : ({ block with hash := h } : Block).transactions = block.transactions := rfl
  cases hx : block.transactions with
  | nil => simp only [settleAndCommit, htx, hx]
  | cons cb rest =>
    simp only [settleAndCommit, htx, hx]
    by_cases hcb : cb.is_coinbase = true
    · rw [if_neg (by simp [hcb]), if_neg (by simp [hcb])]
      cases hsl : settleLoop bc.unspent_outputs rest ∅ ∅ 0 with
      | error e => simp only [hsl]
      | ok v =>
        obtain ⟨s2, c2, f2⟩ := v
        simp only [hsl]
        by_cases hfee : cb.output_value < f2
        · rw [if_pos hfee, if_pos hfee]
        · rw [if_neg hfee, if_neg hfee]
    · rw [if_pos (by simp [hcb]), if_pos (by simp [hcb])]

/-- A submission whose index mismatches reduces to `MismatchedIndex`. -/
theorem update_err_index (digest : List Nat → List Nat) (bc : BlockChain) (block : Block)
    (hidx : block.index ≠ bc.blocks.length) :
    update_with_block digest bc block = (.error .MismatchedIndex, bc) := by
  simp only [update_with_block]
  rw [if_pos hidx]

/-- A submission failing the recomputed proof-of-work check reduces to
`InvalidHash`. -/
theorem update_err_pow (digest : List Nat → List Nat) (bc : BlockChain) (block : Block)
    (hidx : block.index = bc.blocks.length)
    (hpow : ¬ check_difficulty (Block.hashOf digest block) block.difficulty = true) :
    update_with_block digest bc block = (.error .InvalidHash, bc) := by
  simp only [update_with_block]
  rw [if_neg (by simp [hidx]), if_pos hpow]

/-- A submission not after its predecessor reduces to
`AchronicalTimestamp`. -/
theorem update_err_ts (digest : List Nat → List Nat) (bc : BlockChain) (block p : Block)
    (hL : bc.blocks.getLast? = some p) (hidx : block.index = bc.blocks.length)
    (hpow : check_difficulty (Block.hashOf digest block) block.difficulty = true)
    (hts : block.timestamp ≤ p.timestamp) :
    update_with_block digest bc block = (.error .AchronicalTimestamp, bc) := by
  simp only [update_with_block, hL]
  rw [if_neg (by simp [hidx]), if_neg (by simp [hpow]), if_pos hts]

/-- A submission not linking to its predecessor's stored hash reduces to
`MismatchedPreviousHash`. -/
theorem update_err_prev (digest : List Nat → List Nat) (bc : BlockChain) (block p : Block)
    (hL : bc.blocks.getLast? = some p) (hidx : block.index = bc.blocks.length)
    (hpow : check_difficulty (Block.hashOf digest block) block.difficulty = true)
    (hts : ¬ block.timestamp ≤ p.timestamp)
    (hprev : block.previous_block_hash ≠ p.hash) :
    update_with_block digest bc block = (.error .MismatchedPreviousHash, bc) := by
  simp only [update_with_block, hL]
  rw [if_neg (by simp [hidx]), if_neg (by simp [hpow]), if_neg hts, if_pos hprev]

/-- A genesis-position submission with a non-zero sentinel reduces to
`InvalidGenesisBlockFormat`. -/
theorem update_err_genesis (digest : List Nat → List Nat) (bc : BlockChain) (block : Block)
    (hL : bc.blocks.getLast? = none) (hidx : block.index = bc.blocks.length)
    (hpow : check_difficulty (Block.hashOf digest block) block.difficulty = true)
    (hz : block.previous_block_hash ≠ List.replicate 32 0) :
    update_with_block digest bc block = (.error .InvalidGenesisBlockFormat, bc) := by
  simp only [update_with_block, hL]
  rw [if_neg (by simp [hidx]), if_neg (by simp [hpow]), if_pos hz]

/-- A submission passing the index, proof-of-work and linkage/genesis checks
reduces to settlement-and-commit. -/
theorem update_reduce_settle (digest : List Nat → List Nat) (bc : BlockChain) (block : Block)
    (hidx : block.index = bc.blocks.length)
    (hpow : check_difficulty (Block.hashOf digest block) block.difficulty = true)
    (hlink : linkageOk bc block = true) :
    update_with_block digest bc block = settleAndCommit bc block := by
  cases hL : bc.blocks.getLast? with
  | some p =>
    have hl2 : p.timestamp < block.timestamp ∧ block.previous_block_hash = p.hash := by
      have ht := hlink
      unfold linkageOk at ht
      rw [hL] at ht
      simpa using ht
    simp only [update_with_block, hL]
    rw [if_neg (by simp [hidx]), if_neg (by simp [hpow]), if_neg (Nat.not_le.mpr hl2.1),
      if_neg (by simp [hl2.2])]
  | none =>
    have hl2 : block.previous_block_hash = List.replicate 32 0 := by
      have ht := hlink
      unfold linkageOk at ht
      rw [hL] at ht
      simpa using ht
    simp only [update_with_block, hL]
    rw [if_neg (by simp [hidx]), if_neg (by simp [hpow]), if_neg (by simp [hl2])]

/-- The result status of a submission does not depend on the submitted
block's stored `hash` field (the canonical bytes exclude it and the check
recomputes the digest). -/
theorem update_with_block_fst_hash_update (digest : List Nat → List Nat) (bc : BlockChain)
    (block : Block) (h : Hash) :
    (update_with_block digest bc { block with hash := h }).fst =
      (update_with_block digest bc block).fst := by
  by_cases hidx : block.index = bc.blocks.length
  · by_cases hpow : check_difficulty (Block.hashOf digest block) block.difficulty = true
    · by_cases hlink : linkageOk bc block = true
      · rw [update_reduce_settle digest bc { block with hash := h } hidx hpow hlink,
          update_reduce_settle digest bc block hidx hpow hlink]
        exact settleAndCommit_fst_hash_update bc block h
      · cases hL : bc.blocks.getLast? with
        | some p =>
          by_cases hts : block.timestamp ≤ p.timestamp
          · rw [update_err_ts digest bc { block with hash := h } p hL hidx hpow hts,
              update_err_ts digest bc block p hL hidx hpow hts]
          · have hprev : block.previous_block_hash ≠ p.hash := by
              intro hp
              apply hlink
              unfold linkageOk
              rw [hL]
              simp [hp, Nat.lt_of_not_le hts]
            rw [update_err_prev digest bc { block with hash := h } p hL hidx hpow hts hprev,
              update_err_prev digest bc block p hL hidx hpow hts hprev]
        | none =>
          have hz : block.previous_block_hash ≠ List.replicate 32 0 := by
            intro hp
            apply hlink
            unfold linkageOk
            rw [hL]
            simp [hp]
          rw [update_err_genesis digest bc { block with hash := h } hL hidx hpow hz,
            update_err_genesis digest bc block hL hidx hpow hz]
    · rw [update_err_pow digest bc { block with hash := h } hidx hpow,
        update_err_pow digest bc block hidx hpow]
  · rw [update_err_index digest bc { block with hash := h } hidx,
      update_err_index digest bc block hidx]

/-- C9: `update_with_block` never compares the stored `hash` field with the
recomputed digest — the result status is identical for any value of the
stored `hash` field; on acceptance the block is appended as given, and the
next accepted block's `previous_block_hash` must equal exactly that stored
`hash` field. -/
theorem C9_stored_hash_untrusted (digest : List Nat → List Nat) (bc : BlockChain)
    (block : Block) (h : Hash) :
    ((update_with_block digest bc { block with hash := h }).fst =
      (update_with_block digest bc block).fst) ∧
    (∀ u bc2, update_with_block digest bc block = (.ok u, bc2) →
      bc2.blocks = bc.blocks ++ [block]) ∧
    (∀ u bc2 b2 u2 bc3, update_with_block digest bc block = (.ok u, bc2) →
      update_with_block digest bc2 b2 = (.ok u2, bc3) →
      b2.previous_block_hash = block.hash) := by
  refine ⟨update_with_block_fst_hash_update digest bc block h, ?_, ?_⟩
  · intro u bc2 hu
    exact (update_with_block_ok digest bc block u bc2 hu).2.2.2.2.1
  · intro u bc2 b2 u2 bc3 hu hu2
    obtain ⟨_, _, _, _, hblocks, _⟩ := update_with_block_ok digest bc block u bc2 hu
    obtain ⟨_, _, hlink2, _, _, _⟩ := update_with_block_ok digest bc2 b2 u2 bc3 hu2
    have hlast : bc2.blocks.getLast? = some block := by
      rw [hblocks, List.getLast?_append_cons]
      rfl
    exact (hlink2 block hlast).2

/-- Witness for C9 on the concrete two-block chain, with an arbitrary
non-digest value in the genesis block's stored `hash` field. -/
theorem C9_stored_hash_untrusted_witness :
    ((update_with_block zeroDigest BlockChain.new
        { wB0 with hash := List.replicate 32 1 }).fst =
      (update_with_block zeroDigest BlockChain.new wB0).fst) ∧
    wB0St.blocks = BlockChain.new.blocks ++ [wB0] ∧
    wB1.previous_block_hash = wB0.hash := by
  have H := C9_stored_hash_untrusted zeroDigest BlockChain.new wB0 (List.replicate 32 1)
  exact ⟨H.1, H.2.1 () wB0St (by decide), H.2.2 () wB0St wB1 () wSt (by decide) (by decide)⟩
